import Mathlib

set_option maxHeartbeats 1000000

/-!
Verification of the trie container declared in src/trie.h of the
radix-tree repository.  The repository ships only the interface header;
the behaviour of every operation is modelled from the specification
(single-character labels, children kept in ascending label order, a
shared prefix-walk primitive, pruning erase, canonical in-order
traversal, and key-set based set algebra).  Keys are embedded as
List Char.
-/

mutual
/-- The Node type of src/trie.h: an is_end flag plus an ordered map from
single-character labels to child nodes.  Modelled from the spec: the
implementation file is missing, so the ordered std::map of children is
embedded as the label-sorted association structure Children. -/
inductive Node : Type where
  | mk (is_end : Bool) (children : Children)
/-- Modelled from the spec: the ordered children map of a Node, as an
association list that well-formed tries keep sorted by label. -/
inductive Children : Type where
  | nil : Children
  | cons (label : Char) (child : Node) (rest : Children) : Children
end

/-- The is_end field of a Node. -/
def Node.is_end : Node → Bool
  | .mk b _ => b

/-- The children field of a Node. -/
def Node.children : Node → Children
  | .mk _ cs => cs

/-- Whether a children map is empty. -/
def Children.isNil : Children → Bool
  | .nil => true
  | .cons _ _ _ => false

/-- The labels of a children map, in map order. -/
def Children.labels : Children → List Char
  | .nil => []
  | .cons c _ rest => c :: Children.labels rest

/-- Modelled from the spec: child lookup by label (section 4.1, return the
child for a label if present, else none). -/
def Children.findChild (c : Char) : Children → Option Node
  | .nil => none
  | .cons d m rest => if c = d then some m else Children.findChild c rest

/-- Modelled from the spec: create-or-replace the child for a label,
keeping the map in ascending label order as std::map does. -/
def Children.setChild (c : Char) (m : Node) : Children → Children
  | .nil => .cons c m .nil
  | .cons d n rest =>
      if c < d then .cons c m (.cons d n rest)
      else if c = d then .cons c m rest
      else .cons d n (Children.setChild c m rest)

/-- Modelled from the spec: remove the child for a label (used by the
pruning phase of erase). -/
def Children.removeChild (c : Char) : Children → Children
  | .nil => .nil
  | .cons d n rest => if c = d then rest else .cons d n (Children.removeChild c rest)

/-- A node is live when it is a stored key or has at least one child;
section 3 of the spec forbids dead non-root nodes. -/
def Node.live (n : Node) : Bool := n.is_end || !(Children.isNil n.children)

mutual
/-- Well-formedness of a node: its children map is sorted by label and
every child is live and well-formed (the spec invariants of section 3;
the root itself need not be live). -/
def Node.wf : Node → Bool
  | .mk _ cs => decide ((Children.labels cs).Pairwise (· < ·)) && Children.wfAll cs
/-- Every child in the map is live and well-formed. -/
def Children.wfAll : Children → Bool
  | .nil => true
  | .cons _ n rest => Node.live n && Node.wf n && Children.wfAll rest
end

mutual
/-- The no-dead-node invariant of section 3 of the spec: every node
reachable from this one, other than this node itself, is live. -/
def Node.noDead : Node → Bool
  | .mk _ cs => Children.noDeadAll cs
/-- Every child in the map is live and has no dead descendant. -/
def Children.noDeadAll : Children → Bool
  | .nil => true
  | .cons _ n rest => Node.live n && Node.noDead n && Children.noDeadAll rest
end

/-- Modelled from the spec: the shared prefix-walk primitive of section
4.2 that locates the node corresponding to a given string, if any. -/
def Node.find : Node → List Char → Option Node
  | n, [] => some n
  | n, c :: rest =>
      match Children.findChild c n.children with
      | none => none
      | some m => Node.find m rest

/-- Modelled from the spec: insert walks or creates the path for the key
and sets is_end on the terminal node (section 4.2). -/
def Node.insert : Node → List Char → Node
  | n, [] => .mk true n.children
  | n, c :: rest =>
      let child := (Children.findChild c n.children).getD (.mk false .nil)
      .mk n.is_end (Children.setChild c (Node.insert child rest) n.children)

/-- Modelled from the spec: erase (section 4.2).  With isPref false it
clears is_end on the terminal node; with isPref true it detaches the
entire subtree at the terminal node, including its own entry.  Returning
from the recursion prunes any child that became dead. -/
def Node.erase : Node → List Char → Bool → Node
  | n, [], isPref => if isPref then .mk false .nil else .mk false n.children
  | n, c :: rest, isPref =>
      match Children.findChild c n.children with
      | none => n
      | some m =>
          let m' := Node.erase m rest isPref
          if Node.live m' then .mk n.is_end (Children.setChild c m' n.children)
          else .mk n.is_end (Children.removeChild c n.children)

/-- Whether a key is stored in the subtree: walk the path and read
is_end at the terminal node. -/
def Node.endAt : Node → List Char → Bool
  | n, [] => n.is_end
  | n, c :: rest =>
      match Children.findChild c n.children with
      | none => false
      | some m => Node.endAt m rest

mutual
/-- Modelled from the spec: the canonical in-order traversal of section
4.3, yielding every stored key in ascending label order. -/
def Node.keys : Node → List (List Char)
  | .mk b cs => (if b then [([] : List Char)] else []) ++ Children.keys cs
/-- Traversal of a children map in ascending label order. -/
def Children.keys : Children → List (List Char)
  | .nil => []
  | .cons c n rest => (Node.keys n).map (fun k => c :: k) ++ Children.keys rest
end

mutual
/-- Modelled from the spec: the reverse traversal of section 4.3, the
same walk with descending label order. -/
def Node.keysRev : Node → List (List Char)
  | .mk b cs => Children.keysRev cs ++ (if b then [([] : List Char)] else [])
/-- Traversal of a children map in descending label order. -/
def Children.keysRev : Children → List (List Char)
  | .nil => []
  | .cons c n rest => Children.keysRev rest ++ (Node.keysRev n).map (fun k => c :: k)
end

mutual
/-- Modelled from the spec: the number of stored keys in a subtree
(section 4.2, size counts stored keys reachable from a node). -/
def Node.count : Node → Nat
  | .mk b cs => (if b then 1 else 0) + Children.count cs
/-- Total key count of all subtrees of a children map. -/
def Children.count : Children → Nat
  | .nil => 0
  | .cons _ n rest => Node.count n + Children.count rest
end

/-- The Trie class of src/trie.h: a container holding one root node. -/
structure Trie where
  root : Node

/-- The default constructor of src/trie.h: an empty trie whose root is
present but stores nothing. -/
def Trie.default : Trie := ⟨Node.mk false Children.nil⟩

/-- Modelled from the spec: Trie::contains walks the path for the key;
with is_prefix false it returns whether the terminal node exists and has
is_end set, with is_prefix true whether the terminal node exists at all. -/
def Trie.contains (t : Trie) (key : List Char) (isPref : Bool) : Bool :=
  match Node.find t.root key with
  | none => false
  | some m => isPref || m.is_end

/-- Modelled from the spec: Trie::insert. -/
def Trie.insert (t : Trie) (key : List Char) : Trie := ⟨Node.insert t.root key⟩

/-- Modelled from the spec: Trie::erase. -/
def Trie.erase (t : Trie) (key : List Char) (isPref : Bool) : Trie :=
  ⟨Node.erase t.root key isPref⟩

/-- Modelled from the spec: Trie::clear resets the trie to the initial
empty state, with the same result as erasing the empty prefix. -/
def Trie.clear (_ : Trie) : Trie := Trie.default

/-- Modelled from the spec: Trie::size counts the stored keys below the
node the prefix walk reaches, 0 when the prefix node does not exist. -/
def Trie.size (t : Trie) (pre : List Char) : Nat :=
  match Node.find t.root pre with
  | none => 0
  | some m => Node.count m

/-- Modelled from the spec: Trie::empty is equivalent to size == 0. -/
def Trie.empty (t : Trie) (pre : List Char) : Bool := t.size pre == 0

/-- The forward iteration sequence of the trie: begin() to end() visits
exactly these keys in this order. -/
def Trie.keys (t : Trie) : List (List Char) := Node.keys t.root

/-- The reverse iteration sequence of the trie: rbegin() to rend(). -/
def Trie.keysRev (t : Trie) : List (List Char) := Node.keysRev t.root

/-- Well-formedness of a trie. -/
def Trie.wf (t : Trie) : Bool := Node.wf t.root

/-- The no-dead-node invariant at trie level. -/
def Trie.noDead (t : Trie) : Bool := Node.noDead t.root

/-- A trie built by inserting the listed keys in order into an initially
empty trie, as the iterator-pair and initializer-list constructors do. -/
def Trie.ofList (K : List (List Char)) : Trie := K.foldl Trie.insert Trie.default

/-- Modelled from the spec: compound assignment += iterates the stored
keys of the right operand and inserts each into the left operand. -/
def Trie.append (a b : Trie) : Trie := b.keys.foldl Trie.insert a

/-- Modelled from the spec: compound assignment -= iterates the stored
keys of the right operand and erases each from the left operand as an
exact key, never as a prefix. -/
def Trie.subtract (a b : Trie) : Trie :=
  b.keys.foldl (fun t k => t.erase k false) a

/-- Modelled from the spec: the binary + operator, copy then compound
assign. -/
def Trie.plus (a b : Trie) : Trie := Trie.append a b

/-- Modelled from the spec: the binary - operator, copy then compound
assign. -/
def Trie.minus (a b : Trie) : Trie := Trie.subtract a b

/-- Every stored key of the first trie is stored in the second. -/
def Trie.subsetB (a b : Trie) : Bool := a.keys.all (fun k => decide (k ∈ b.keys))

/-- Modelled from the spec: operator== compares the stored-key sets of
the two tries directly. -/
def Trie.beq (a b : Trie) : Bool := Trie.subsetB a b && Trie.subsetB b a

/-- Modelled from the spec: operator< is the proper-subset comparison of
the stored-key sets. -/
def Trie.ltB (a b : Trie) : Bool := Trie.subsetB a b && !(Trie.subsetB b a)

/-- Modelled from the spec: operator<< writes every stored key on its
own line, in forward-traversal order. -/
def Trie.streamOut (t : Trie) : String :=
  String.join (t.keys.map (fun k => String.mk k ++ "\n"))

/-- The lexicographic strict order on keys in which iteration ascends. -/
def lexLt (a b : List Char) : Prop := List.Lex (· < ·) a b

/-- The read-only operations of src/trie.h, all declared const noexcept:
contains, size, empty, const iteration in both directions, and the
stream-output operator. -/
inductive Query : Type where
  | containsQ (key : List Char) (isPref : Bool)
  | sizeQ (pre : List Char)
  | emptyQ (pre : List Char)
  | iterateQ
  | iterateRevQ
  | streamQ

/-- The answer a read-only operation returns. -/
inductive Answer : Type where
  | boolA (b : Bool)
  | natA (n : Nat)
  | listA (ks : List (List Char))
  | stringA (s : String)

/-- Modelled from the spec: running one read-only operation returns its
answer and hands back the trie exactly as it was, since the header
declares these operations const and the spec gives them no mutating
behaviour. -/
def runQuery (t : Trie) : Query → Answer × Trie
  | .containsQ key isPref => (.boolA (Trie.contains t key isPref), t)
  | .sizeQ pre => (.natA (Trie.size t pre), t)
  | .emptyQ pre => (.boolA (Trie.empty t pre), t)
  | .iterateQ => (.listA (Trie.keys t), t)
  | .iterateRevQ => (.listA (Trie.keysRev t), t)
  | .streamQ => (.stringA (Trie.streamOut t), t)

/-- Run a sequence of read-only operations, threading the trie through. -/
def runQueries : Trie → List Query → Trie
  | t, [] => t
  | t, q :: qs => runQueries (runQuery t q).2 qs

/-! ### Children-map lemmas -/

theorem findChild_none_of_not_mem {c : Char} : ∀ {cs : Children},
    c ∉ Children.labels cs → Children.findChild c cs = none
  | .nil, _ => rfl
  | .cons d m rest, h => by
    simp only [Children.labels, List.mem_cons, not_or] at h
    simp only [Children.findChild, if_neg h.1]
    exact findChild_none_of_not_mem h.2

theorem findChild_mem_labels {c : Char} : ∀ {cs : Children} {m : Node},
    Children.findChild c cs = some m → c ∈ Children.labels cs
  | .nil, m, h => by simp [Children.findChild] at h
  | .cons d n rest, m, h => by
    by_cases hc : c = d
    · simp [Children.labels, hc]
    · simp only [Children.findChild, if_neg hc] at h
      simp only [Children.labels, List.mem_cons]
      exact Or.inr (findChild_mem_labels h)

theorem mem_labels_setChild {e c : Char} {m : Node} : ∀ {s : Children},
    e ∈ Children.labels (Children.setChild c m s) ↔ e = c ∨ e ∈ Children.labels s
  | .nil => by simp [Children.setChild, Children.labels]
  | .cons d n rest => by
    by_cases h1 : c < d
    · simp [Children.setChild, if_pos h1, Children.labels, List.mem_cons]
    · by_cases h2 : c = d
      · subst h2
        simp only [Children.setChild, if_neg h1, if_pos rfl, Children.labels,
          List.mem_cons]
        tauto
      · simp only [Children.setChild, if_neg h1, if_neg h2, Children.labels,
          List.mem_cons, mem_labels_setChild (s := rest)]
        tauto

theorem labels_setChild_sorted {c : Char} {m : Node} : ∀ {cs : Children},
    (Children.labels cs).Pairwise (· < ·) →
    (Children.labels (Children.setChild c m cs)).Pairwise (· < ·)
  | .nil, _ => by simp [Children.setChild, Children.labels]
  | .cons d n rest, h => by
    rw [Children.labels, List.pairwise_cons] at h
    by_cases h1 : c < d
    · simp only [Children.setChild, if_pos h1, Children.labels]
      rw [List.pairwise_cons]
      refine ⟨?_, ?_⟩
      · intro e he
        rw [List.mem_cons] at he
        rcases he with rfl | he
        · exact h1
        · exact lt_trans h1 (h.1 e he)
      · rw [List.pairwise_cons]
        exact h
    · by_cases h2 : c = d
      · subst h2
        simp only [Children.setChild, if_neg h1, if_pos rfl, Children.labels]
        rw [List.pairwise_cons]
        exact h
      · have hdc : d < c := by
          rcases lt_trichotomy c d with h' | h' | h'
          · exact absurd h' h1
          · exact absurd h' h2
          · exact h'
        simp only [Children.setChild, if_neg h1, if_neg h2, Children.labels]
        rw [List.pairwise_cons]
        refine ⟨?_, labels_setChild_sorted h.2⟩
        intro e he
        rcases mem_labels_setChild.mp he with rfl | he'
        · exact hdc
        · exact h.1 e he'

theorem findChild_setChild {c d : Char} {m : Node} : ∀ {s : Children},
    Children.findChild d (Children.setChild c m s) =
      if d = c then some m else Children.findChild d s
  | .nil => by
    by_cases h : d = c <;> simp [Children.setChild, Children.findChild, h]
  | .cons e n rest => by
    by_cases h1 : c < e
    · by_cases h : d = c <;>
        simp [Children.setChild, if_pos h1, Children.findChild, h]
    · by_cases h2 : c = e
      · subst h2
        by_cases h : d = c <;>
          simp [Children.setChild, if_neg h1, Children.findChild, h]
      · by_cases h : d = e
        · subst h
          have hdc : ¬d = c := fun hh => h2 hh.symm
          simp [Children.setChild, if_neg h1, if_neg h2, Children.findChild, hdc]
        · simp only [Children.setChild, if_neg h1, if_neg h2, Children.findChild,
            if_neg h, findChild_setChild (s := rest)]

theorem labels_removeChild_sublist {c : Char} : ∀ {s : Children},
    List.Sublist (Children.labels (Children.removeChild c s)) (Children.labels s)
  | .nil => by simp [Children.removeChild, Children.labels]
  | .cons d n rest => by
    by_cases h : c = d
    · simp only [Children.removeChild, if_pos h, Children.labels]
      exact List.sublist_cons_self _ _
    · simp only [Children.removeChild, if_neg h, Children.labels]
      exact (labels_removeChild_sublist (s := rest)).cons₂ d

theorem labels_removeChild_sorted {c : Char} {cs : Children}
    (h : (Children.labels cs).Pairwise (· < ·)) :
    (Children.labels (Children.removeChild c cs)).Pairwise (· < ·) :=
  h.sublist labels_removeChild_sublist

theorem findChild_removeChild {c d : Char} : ∀ {s : Children},
    (Children.labels s).Pairwise (· < ·) →
    Children.findChild d (Children.removeChild c s) =
      if d = c then none else Children.findChild d s
  | .nil, _ => by
    by_cases h : d = c <;> simp [Children.removeChild, Children.findChild, h]
  | .cons e n rest, hs => by
    rw [Children.labels, List.pairwise_cons] at hs
    by_cases h2 : c = e
    · subst h2
      by_cases h : d = c
      · subst h
        have hnm : d ∉ Children.labels rest := fun hm => lt_irrefl d (hs.1 d hm)
        simp [Children.removeChild, Children.findChild,
          findChild_none_of_not_mem hnm]
      · simp [Children.removeChild, Children.findChild, h]
    · by_cases h : d = e
      · subst h
        have hdc : ¬d = c := fun hh => h2 hh.symm
        simp [Children.removeChild, fun hh => h2 hh, Children.findChild, hdc]
      · simp [Children.removeChild, fun hh => h2 hh, Children.findChild, h,
          findChild_removeChild (s := rest) hs.2]

theorem wfAll_findChild {c : Char} : ∀ {cs : Children} {m : Node},
    Children.wfAll cs = true → Children.findChild c cs = some m →
    Node.live m = true ∧ Node.wf m = true
  | .nil, m, _, h => by simp [Children.findChild] at h
  | .cons d n rest, m, hw, h => by
    rw [Children.wfAll, Bool.and_eq_true, Bool.and_eq_true] at hw
    obtain ⟨⟨hl, hn⟩, hrest⟩ := hw
    by_cases hc : c = d
    · simp only [Children.findChild, if_pos hc, Option.some.injEq] at h
      exact ⟨h ▸ hl, h ▸ hn⟩
    · simp only [Children.findChild, if_neg hc] at h
      exact wfAll_findChild hrest h

theorem wfAll_setChild {c : Char} {m : Node} : ∀ {cs : Children},
    Children.wfAll cs = true → Node.live m = true → Node.wf m = true →
    Children.wfAll (Children.setChild c m cs) = true
  | .nil, _, hl, hw => by
    simp [Children.setChild, Children.wfAll, hl, hw]
  | .cons d n rest, hall, hl, hw => by
    rw [Children.wfAll, Bool.and_eq_true, Bool.and_eq_true] at hall
    obtain ⟨⟨hnl, hnw⟩, hrest⟩ := hall
    by_cases h1 : c < d
    · simp only [Children.setChild, if_pos h1]
      rw [Children.wfAll, Children.wfAll]
      simp [hl, hw, hnl, hnw, hrest]
    · by_cases h2 : c = d
      · simp only [Children.setChild, if_neg h1, if_pos h2]
        rw [Children.wfAll]
        simp [hl, hw, hrest]
      · simp only [Children.setChild, if_neg h1, if_neg h2]
        rw [Children.wfAll]
        simp [hnl, hnw, wfAll_setChild hrest hl hw]

theorem wfAll_removeChild {c : Char} : ∀ {cs : Children},
    Children.wfAll cs = true → Children.wfAll (Children.removeChild c cs) = true
  | .nil, _ => by simp [Children.removeChild, Children.wfAll]
  | .cons d n rest, hall => by
    rw [Children.wfAll, Bool.and_eq_true, Bool.and_eq_true] at hall
    obtain ⟨⟨hnl, hnw⟩, hrest⟩ := hall
    by_cases h : c = d
    · simp only [Children.removeChild, if_pos h]
      exact hrest
    · simp only [Children.removeChild, if_neg h]
      rw [Children.wfAll]
      simp [hnl, hnw, wfAll_removeChild hrest]

theorem setChild_not_nil {c : Char} {m : Node} {cs : Children} :
    Children.isNil (Children.setChild c m cs) = false := by
  cases cs with
  | nil => simp [Children.setChild, Children.isNil]
  | cons d n rest =>
    by_cases h1 : c < d
    · simp [Children.setChild, if_pos h1, Children.isNil]
    · by_cases h2 : c = d <;>
        simp [Children.setChild, if_neg h1, h2, Children.isNil]

/-! ### Preservation of well-formedness -/

theorem wf_nilNode : Node.wf (Node.mk false Children.nil) = true := by
  simp [Node.wf, Children.wfAll, Children.labels]

theorem live_insert : ∀ (n : Node) (k : List Char),
    Node.live (Node.insert n k) = true
  | n, [] => by simp [Node.insert, Node.live, Node.is_end]
  | n, c :: rest => by
    simp [Node.insert, Node.live, Node.is_end, Node.children, setChild_not_nil]

theorem wf_insert : ∀ (k : List Char) (n : Node), Node.wf n = true →
    Node.wf (Node.insert n k) = true
  | [], .mk b cs, h => by
    rw [Node.insert]
    rw [Node.wf] at h ⊢
    simpa [Node.children] using h
  | c :: rest, .mk b cs, h => by
    rw [Node.wf, Bool.and_eq_true, decide_eq_true_eq] at h
    obtain ⟨hsort, hall⟩ := h
    rw [Node.insert]
    rw [Node.wf, Bool.and_eq_true, decide_eq_true_eq]
    simp only [Node.children] at hsort hall ⊢
    refine ⟨labels_setChild_sorted hsort, ?_⟩
    apply wfAll_setChild hall (live_insert _ _)
    cases hfc : Children.findChild c cs with
    | none => exact wf_insert rest _ (by simp [hfc, Option.getD, wf_nilNode])
    | some m => exact wf_insert rest _ (by simpa [hfc] using (wfAll_findChild hall hfc).2)

theorem wf_erase : ∀ (k : List Char) (isPref : Bool) (n : Node), Node.wf n = true →
    Node.wf (Node.erase n k isPref) = true
  | [], false, .mk b cs, h => by
    simp only [Node.erase, Bool.false_eq_true, if_false]
    rw [Node.wf] at h ⊢
    simpa [Node.children] using h
  | [], true, .mk b cs, _ => by
    simp only [Node.erase, if_true]
    exact wf_nilNode
  | c :: rest, isPref, .mk b cs, h => by
    rw [Node.wf, Bool.and_eq_true, decide_eq_true_eq] at h
    obtain ⟨hsort, hall⟩ := h
    cases hfc : Children.findChild c cs with
    | none =>
      simp only [Node.erase, Node.children, hfc]
      rw [Node.wf, Bool.and_eq_true, decide_eq_true_eq]
      exact ⟨hsort, hall⟩
    | some m =>
      have hmw : Node.wf m = true := (wfAll_findChild hall hfc).2
      have hrec := wf_erase rest isPref m hmw
      cases hl : Node.live (Node.erase m rest isPref) with
      | true =>
        simp only [Node.erase, Node.children, hfc, hl, if_true]
        rw [Node.wf, Bool.and_eq_true, decide_eq_true_eq]
        exact ⟨labels_setChild_sorted hsort, wfAll_setChild hall hl hrec⟩
      | false =>
        simp only [Node.erase, Node.children, hfc, hl, Bool.false_eq_true,
          if_false]
        rw [Node.wf, Bool.and_eq_true, decide_eq_true_eq]
        exact ⟨labels_removeChild_sorted hsort, wfAll_removeChild hall⟩

mutual
theorem wf_noDead : ∀ n : Node, Node.wf n = true → Node.noDead n = true
  | .mk b cs, h => by
    rw [Node.wf, Bool.and_eq_true] at h
    rw [Node.noDead]
    exact wfAll_noDeadAll cs h.2
theorem wfAll_noDeadAll : ∀ cs : Children,
    Children.wfAll cs = true → Children.noDeadAll cs = true
  | .nil, _ => rfl
  | .cons c n rest, h => by
    rw [Children.wfAll, Bool.and_eq_true, Bool.and_eq_true] at h
    rw [Children.noDeadAll]
    simp [h.1.1, wf_noDead n h.1.2, wfAll_noDeadAll rest h.2]
end

/-! ### Membership after insert and erase, at the level of endAt -/

theorem children_nil_of_isNil : ∀ {cs : Children},
    Children.isNil cs = true → cs = Children.nil
  | .nil, _ => rfl
  | .cons _ _ _, h => by simp [Children.isNil] at h

theorem endAt_nilNode : ∀ kk : List Char,
    Node.endAt (Node.mk false Children.nil) kk = false
  | [] => rfl
  | c :: rest => by simp [Node.endAt, Node.children, Children.findChild]

theorem endAt_not_live : ∀ (m : Node) (t : List Char),
    Node.live m = false → Node.endAt m t = false
  | .mk b cs, t, h => by
    simp only [Node.live, Node.is_end, Node.children, Bool.or_eq_false_iff,
      Bool.not_eq_false'] at h
    rw [h.1, children_nil_of_isNil h.2]
    exact endAt_nilNode t

theorem endAt_insert : ∀ (k : List Char) (n : Node) (kk : List Char),
    Node.endAt (Node.insert n k) kk = (Node.endAt n kk || decide (kk = k))
  | [], .mk b cs, [] => by
    simp [Node.insert, Node.endAt, Node.is_end]
  | [], .mk b cs, d :: t => by
    simp only [Node.insert, Node.endAt, Node.children]
    cases Children.findChild d cs <;> simp
  | c :: rest, .mk b cs, [] => by
    simp [Node.insert, Node.endAt, Node.is_end]
  | c :: rest, .mk b cs, d :: t => by
    by_cases hd : d = c
    · subst hd
      cases hfc : Children.findChild d cs with
      | none =>
        simp [Node.insert, Node.endAt, Node.children, hfc, findChild_setChild,
          endAt_insert rest _ t, endAt_nilNode]
      | some m =>
        simp [Node.insert, Node.endAt, Node.children, hfc, findChild_setChild,
          endAt_insert rest m t]
    · simp only [Node.insert, Node.endAt, Node.children, findChild_setChild,
        if_neg hd]
      cases Children.findChild d cs <;> simp [hd]

theorem endAt_erase_false : ∀ (k : List Char) (n : Node) (kk : List Char),
    Node.wf n = true →
    Node.endAt (Node.erase n k false) kk = (Node.endAt n kk && !(decide (kk = k)))
  | [], .mk b cs, [], _ => by
    simp [Node.erase, Node.endAt, Node.is_end]
  | [], .mk b cs, d :: t, _ => by
    simp only [Node.erase, Bool.false_eq_true, if_false, Node.endAt, Node.children]
    cases Children.findChild d cs <;> simp
  | c :: rest, .mk b cs, kk, h => by
    rw [Node.wf, Bool.and_eq_true, decide_eq_true_eq] at h
    obtain ⟨hsort, hall⟩ := h
    cases hfc : Children.findChild c cs with
    | none =>
      simp only [Node.erase, Node.children, hfc]
      cases kk with
      | nil => simp [Node.endAt, Node.is_end]
      | cons d t =>
        by_cases hd : d = c
        · subst hd
          simp [Node.endAt, Node.children, hfc]
        · simp only [Node.endAt, Node.children]
          cases Children.findChild d cs <;> simp [hd]
    | some m =>
      have hmw : Node.wf m = true := (wfAll_findChild hall hfc).2
      cases hl : Node.live (Node.erase m rest false) with
      | true =>
        simp only [Node.erase, Node.children, hfc, hl, if_true]
        cases kk with
        | nil => simp [Node.endAt, Node.is_end]
        | cons d t =>
          by_cases hd : d = c
          · subst hd
            simp [Node.endAt, Node.children, findChild_setChild, hfc,
              endAt_erase_false rest m t hmw]
          · simp only [Node.endAt, Node.children, findChild_setChild, if_neg hd]
            cases Children.findChild d cs <;> simp [hd]
      | false =>
        simp only [Node.erase, Node.children, hfc, hl, Bool.false_eq_true, if_false]
        cases kk with
        | nil => simp [Node.endAt, Node.is_end]
        | cons d t =>
          by_cases hd : d = c
          · subst hd
            have hrec := endAt_erase_false rest m t hmw
            rw [endAt_not_live _ t hl] at hrec
            have hgoal : (Node.endAt m t && !(decide (t = rest))) = false := hrec.symm
            simp [Node.endAt, Node.children, findChild_removeChild hsort, hfc, hgoal]
          · simp only [Node.endAt, Node.children, findChild_removeChild hsort,
              if_neg hd]
            cases Children.findChild d cs <;> simp [hd]

theorem endAt_erase_true : ∀ (k : List Char) (n : Node) (kk : List Char),
    Node.wf n = true →
    Node.endAt (Node.erase n k true) kk = (Node.endAt n kk && !(List.isPrefixOf k kk))
  | [], n, kk, _ => by
    simp [Node.erase, endAt_nilNode, List.isPrefixOf]
  | c :: rest, .mk b cs, kk, h => by
    rw [Node.wf, Bool.and_eq_true, decide_eq_true_eq] at h
    obtain ⟨hsort, hall⟩ := h
    cases hfc : Children.findChild c cs with
    | none =>
      simp only [Node.erase, Node.children, hfc]
      cases kk with
      | nil => simp [Node.endAt, Node.is_end, List.isPrefixOf]
      | cons d t =>
        by_cases hd : d = c
        · subst hd
          simp [Node.endAt, Node.children, hfc]
        · simp only [Node.endAt, Node.children, List.isPrefixOf]
          have : (c == d) = false := by
            exact beq_eq_false_iff_ne.mpr fun hh => hd hh.symm
          rw [this]
          cases Children.findChild d cs <;> simp
    | some m =>
      have hmw : Node.wf m = true := (wfAll_findChild hall hfc).2
      cases hl : Node.live (Node.erase m rest true) with
      | true =>
        simp only [Node.erase, Node.children, hfc, hl, if_true]
        cases kk with
        | nil => simp [Node.endAt, Node.is_end, List.isPrefixOf]
        | cons d t =>
          by_cases hd : d = c
          · subst hd
            simp [Node.endAt, Node.children, findChild_setChild, hfc,
              endAt_erase_true rest m t hmw, List.isPrefixOf]
          · simp only [Node.endAt, Node.children, findChild_setChild, if_neg hd,
              List.isPrefixOf]
            have : (c == d) = false := by
              exact beq_eq_false_iff_ne.mpr fun hh => hd hh.symm
            rw [this]
            cases Children.findChild d cs <;> simp
      | false =>
        simp only [Node.erase, Node.children, hfc, hl, Bool.false_eq_true, if_false]
        cases kk with
        | nil => simp [Node.endAt, Node.is_end, List.isPrefixOf]
        | cons d t =>
          by_cases hd : d = c
          · subst hd
            have hrec := endAt_erase_true rest m t hmw
            rw [endAt_not_live _ t hl] at hrec
            have hgoal : (Node.endAt m t && !(List.isPrefixOf rest t)) = false :=
              hrec.symm
            simp [Node.endAt, Node.children, findChild_removeChild hsort, hfc,
              List.isPrefixOf, hgoal]
          · simp only [Node.endAt, Node.children, findChild_removeChild hsort,
              if_neg hd, List.isPrefixOf]
            have : (c == d) = false := by
              exact beq_eq_false_iff_ne.mpr fun hh => hd hh.symm
            rw [this]
            cases Children.findChild d cs <;> simp [hd]

/-! ### The traversal list and membership -/

mutual
theorem keys_length_node : ∀ n : Node, (Node.keys n).length = Node.count n
  | .mk b cs => by
    simp [Node.keys, Node.count, keys_length_children cs]
    cases b <;> simp
theorem keys_length_children : ∀ cs : Children,
    (Children.keys cs).length = Children.count cs
  | .nil => by simp [Children.keys, Children.count]
  | .cons c n rest => by
    simp [Children.keys, Children.count, keys_length_node n,
      keys_length_children rest]
end

theorem children_keys_shape : ∀ (cs : Children) (x : List Char),
    x ∈ Children.keys cs → ∃ c t, x = c :: t ∧ c ∈ Children.labels cs
  | .nil, x, hx => by simp [Children.keys] at hx
  | .cons c n rest, x, hx => by
    simp only [Children.keys, List.mem_append, List.mem_map] at hx
    rcases hx with ⟨k, hk, rfl⟩ | hx
    · exact ⟨c, k, rfl, by simp [Children.labels]⟩
    · obtain ⟨d, t, rfl, hd⟩ := children_keys_shape rest x hx
      exact ⟨d, t, rfl, by simp [Children.labels, hd]⟩

theorem not_mem_children_keys_of_head_not_mem {c : Char} {t : List Char}
    {cs : Children} (h : c ∉ Children.labels cs) :
    (c :: t) ∉ Children.keys cs := by
  intro hmem
  obtain ⟨e, s, he, hmem2⟩ := children_keys_shape cs _ hmem
  injection he with h1 h2
  subst h1
  exact h hmem2

theorem nil_not_mem_children_keys {cs : Children} :
    ([] : List Char) ∉ Children.keys cs := by
  intro hmem
  obtain ⟨e, s, he, _⟩ := children_keys_shape cs _ hmem
  exact List.cons_ne_nil e s he.symm

theorem mem_children_keys {c : Char} {t : List Char} : ∀ {s : Children},
    (Children.labels s).Pairwise (· < ·) →
    ((c :: t) ∈ Children.keys s ↔
      ∃ m, Children.findChild c s = some m ∧ t ∈ Node.keys m)
  | .nil, _ => by simp [Children.keys, Children.findChild]
  | .cons d n rest, hs => by
    rw [Children.labels, List.pairwise_cons] at hs
    by_cases hc : c = d
    · subst hc
      have hnot : c ∉ Children.labels rest := fun hm => lt_irrefl c (hs.1 c hm)
      rw [Children.keys]
      simp only [List.mem_append, Children.findChild, if_pos rfl, eq_self_iff_true, if_true, Option.some.injEq]
      constructor
      · rintro (hmap | hmem)
        · rw [List.mem_map] at hmap
          obtain ⟨k, hk, he⟩ := hmap
          injection he with h1 h2
          subst h2
          exact ⟨n, rfl, hk⟩
        · exact absurd hmem (not_mem_children_keys_of_head_not_mem hnot)
      · rintro ⟨m, rfl, ht⟩
        left
        rw [List.mem_map]
        exact ⟨t, ht, rfl⟩
    · rw [Children.keys]
      simp only [List.mem_append, Children.findChild, if_neg hc]
      rw [mem_children_keys (s := rest) hs.2]
      constructor
      · rintro (hmap | hmem)
        · rw [List.mem_map] at hmap
          obtain ⟨k, hk, he⟩ := hmap
          injection he with h1 h2
          exact absurd h1.symm hc
        · exact hmem
      · intro hex
        exact Or.inr hex

theorem mem_keys_iff_endAt : ∀ (kk : List Char) (n : Node), Node.wf n = true →
    (kk ∈ Node.keys n ↔ Node.endAt n kk = true)
  | [], .mk b cs, _ => by
    rw [Node.keys]
    simp only [Node.endAt, Node.is_end]
    cases b <;> simp [nil_not_mem_children_keys]
  | c :: t, .mk b cs, h => by
    rw [Node.wf, Bool.and_eq_true, decide_eq_true_eq] at h
    obtain ⟨hsort, hall⟩ := h
    rw [Node.keys]
    have hmc := mem_children_keys (c := c) (t := t) hsort
    constructor
    · intro hmem
      rw [List.mem_append] at hmem
      rcases hmem with hif | hmem
      · cases b <;> simp at hif
      · obtain ⟨m, hm, ht⟩ := hmc.mp hmem
        have hrec := (mem_keys_iff_endAt t m (wfAll_findChild hall hm).2).mp ht
        simp [Node.endAt, Node.children, hm, hrec]
    · intro hend
      simp only [Node.endAt, Node.children] at hend
      cases hfc : Children.findChild c cs with
      | none => rw [hfc] at hend; simp at hend
      | some m =>
        rw [hfc] at hend
        simp only [] at hend
        have ht := (mem_keys_iff_endAt t m (wfAll_findChild hall hfc).2).mpr hend
        rw [List.mem_append]
        exact Or.inr (hmc.mpr ⟨m, hfc, ht⟩)

mutual
theorem keys_ne_nil_of_live : ∀ n : Node, Node.wf n = true → Node.live n = true →
    Node.keys n ≠ []
  | .mk b cs, hw, hl => by
    rw [Node.keys]
    cases b with
    | true => simp
    | false =>
      simp only [Bool.false_eq_true, if_false, List.nil_append]
      rw [Node.live, Node.is_end, Node.children] at hl
      simp only [Bool.false_or, Bool.not_eq_true'] at hl
      rw [Node.wf, Bool.and_eq_true] at hw
      exact children_keys_ne_nil cs hw.2 hl
theorem children_keys_ne_nil : ∀ cs : Children, Children.wfAll cs = true →
    Children.isNil cs = false → Children.keys cs ≠ []
  | .nil, _, h => by simp [Children.isNil] at h
  | .cons c n rest, hall, _ => by
    rw [Children.wfAll, Bool.and_eq_true, Bool.and_eq_true] at hall
    rw [Children.keys]
    have hne := keys_ne_nil_of_live n hall.1.2 hall.1.1
    simp only [ne_eq, List.append_eq_nil, List.map_eq_nil_iff, not_and]
    intro hk
    exact absurd hk hne
end

theorem find_child_step {c : Char} {rest : List Char} {n : Node} :
    Node.find n (c :: rest) =
      match Children.findChild c n.children with
      | none => none
      | some m => Node.find m rest := by
  rw [Node.find]

theorem find_isSome_iff : ∀ (k : List Char) (n : Node), Node.wf n = true →
    ((Node.find n k).isSome = true ↔ k = [] ∨ ∃ kk ∈ Node.keys n, k <+: kk)
  | [], n, _ => by simp [Node.find]
  | c :: rest, .mk b cs, h => by
    have hw := h
    rw [Node.wf, Bool.and_eq_true, decide_eq_true_eq] at h
    obtain ⟨hsort, hall⟩ := h
    rw [find_child_step]
    simp only [Node.children]
    cases hfc : Children.findChild c cs with
    | none =>
      simp only [Option.isSome_none, Bool.false_eq_true, false_iff, not_or]
      refine ⟨by simp, ?_⟩
      rintro ⟨kk, hkk, hpre⟩
      obtain ⟨s, rfl⟩ := hpre
      rw [Node.keys, List.mem_append] at hkk
      rcases hkk with hif | hkk
      · cases b <;> simp at hif
      · obtain ⟨m, hm, _⟩ := (mem_children_keys hsort).mp hkk
        rw [hm] at hfc
        exact Option.noConfusion hfc
    | some m =>
      have hmwf := (wfAll_findChild hall hfc).2
      have hmlive := (wfAll_findChild hall hfc).1
      rw [find_isSome_iff rest m hmwf]
      constructor
      · rintro (rfl | ⟨kk, hkk, hpre⟩)
        · -- rest = [], so find hit node m; m is live so it has a key below it
          refine Or.inr ?_
          have hne := keys_ne_nil_of_live m hmwf hmlive
          cases hkeys : Node.keys m with
          | nil => exact absurd hkeys hne
          | cons k0 ks =>
            refine ⟨c :: k0, ?_, ?_⟩
            · rw [Node.keys, List.mem_append]
              refine Or.inr ((mem_children_keys hsort).mpr ⟨m, hfc, ?_⟩)
              rw [hkeys]
              exact List.mem_cons_self k0 ks
            · exact ⟨k0, rfl⟩
        · refine Or.inr ⟨c :: kk, ?_, ?_⟩
          · rw [Node.keys, List.mem_append]
            exact Or.inr ((mem_children_keys hsort).mpr ⟨m, hfc, hkk⟩)
          · obtain ⟨s, rfl⟩ := hpre
            exact ⟨s, rfl⟩
      · rintro (hnil | ⟨kk, hkk, hpre⟩)
        · exact absurd hnil (List.cons_ne_nil c rest)
        · obtain ⟨s, rfl⟩ := hpre
          rw [Node.keys, List.mem_append] at hkk
          rcases hkk with hif | hkk
          · cases b <;> simp at hif
          · obtain ⟨m2, hm2, ht⟩ := (mem_children_keys hsort).mp hkk
            rw [hm2] at hfc
            injection hfc with hfc
            subst hfc
            exact Or.inr ⟨rest ++ s, ht, s, rfl⟩

/-! ### Sortedness of the traversal -/

instance : IsTrans (List Char) lexLt :=
  inferInstanceAs (IsTrans (List Char) (List.Lex (· < ·)))

instance : IsIrrefl (List Char) lexLt :=
  inferInstanceAs (IsIrrefl (List Char) (List.Lex (· < ·)))

instance : IsAntisymm (List Char) lexLt :=
  inferInstanceAs (IsAntisymm (List Char) (List.Lex (· < ·)))

mutual
theorem keys_sorted_node : ∀ n : Node, Node.wf n = true →
    (Node.keys n).Pairwise lexLt
  | .mk b cs, h => by
    rw [Node.wf, Bool.and_eq_true, decide_eq_true_eq] at h
    obtain ⟨hsort, hall⟩ := h
    rw [Node.keys]
    have hc := keys_sorted_children cs hsort hall
    cases b with
    | false => simpa using hc
    | true =>
      simp only [if_true, List.singleton_append]
      rw [List.pairwise_cons]
      refine ⟨?_, hc⟩
      intro y hy
      obtain ⟨e, s, rfl, _⟩ := children_keys_shape cs y hy
      exact List.Lex.nil
theorem keys_sorted_children : ∀ cs : Children,
    (Children.labels cs).Pairwise (· < ·) → Children.wfAll cs = true →
    (Children.keys cs).Pairwise lexLt
  | .nil, _, _ => by simp [Children.keys]
  | .cons c n rest, hs, hall => by
    rw [Children.labels, List.pairwise_cons] at hs
    rw [Children.wfAll, Bool.and_eq_true, Bool.and_eq_true] at hall
    rw [Children.keys, List.pairwise_append]
    refine ⟨?_, keys_sorted_children rest hs.2 hall.2, ?_⟩
    · exact List.Pairwise.map _ (fun a b hab => List.Lex.cons hab)
        (keys_sorted_node n hall.1.2)
    · intro x hx y hy
      rw [List.mem_map] at hx
      obtain ⟨k, _, rfl⟩ := hx
      obtain ⟨e, s, rfl, he⟩ := children_keys_shape rest y hy
      exact List.Lex.rel (hs.1 e he)
end

theorem keys_nodup {n : Node} (h : Node.wf n = true) : (Node.keys n).Nodup :=
  (keys_sorted_node n h).imp fun hab he =>
    absurd (he ▸ hab) (irrefl_of lexLt _)

theorem sorted_eq_of_same_mem {l1 l2 : List (List Char)}
    (h1 : l1.Pairwise lexLt) (h2 : l2.Pairwise lexLt)
    (hmem : ∀ k, k ∈ l1 ↔ k ∈ l2) : l1 = l2 := by
  have hn1 : l1.Nodup := h1.imp fun hab he => absurd (he ▸ hab) (irrefl_of lexLt _)
  have hn2 : l2.Nodup := h2.imp fun hab he => absurd (he ▸ hab) (irrefl_of lexLt _)
  have hp : l1.Perm l2 := (List.perm_ext_iff_of_nodup hn1 hn2).mpr hmem
  exact List.eq_of_perm_of_sorted hp h1 h2

/-! ### Reverse traversal -/

mutual
theorem keysRev_node : ∀ n : Node, Node.keysRev n = (Node.keys n).reverse
  | .mk b cs => by
    rw [Node.keysRev, Node.keys, keysRev_children cs]
    cases b <;> simp
theorem keysRev_children : ∀ cs : Children,
    Children.keysRev cs = (Children.keys cs).reverse
  | .nil => by simp [Children.keysRev, Children.keys]
  | .cons c n rest => by
    rw [Children.keysRev, Children.keys, keysRev_node n, keysRev_children rest]
    simp [List.reverse_append, List.map_reverse]
end

/-! ### Trie-level bridges -/

theorem match_find_eq_endAt : ∀ (k : List Char) (n : Node),
    (match Node.find n k with
      | none => false
      | some m => Node.is_end m) = Node.endAt n k
  | [], n => by simp [Node.find, Node.endAt]
  | c :: rest, n => by
    rw [find_child_step, Node.endAt]
    cases hfc : Children.findChild c n.children with
    | none => simp
    | some m => simp [match_find_eq_endAt rest m]

theorem contains_false_eq (t : Trie) (k : List Char) :
    Trie.contains t k false = Node.endAt t.root k := by
  rw [Trie.contains, ← match_find_eq_endAt k t.root]
  cases Node.find t.root k <;> simp

theorem contains_true_eq (t : Trie) (k : List Char) :
    Trie.contains t k true = (Node.find t.root k).isSome := by
  rw [Trie.contains]
  cases Node.find t.root k <;> simp

theorem trie_wf_default : Trie.wf Trie.default = true := wf_nilNode

theorem trie_wf_insert {t : Trie} (h : Trie.wf t = true) (k : List Char) :
    Trie.wf (Trie.insert t k) = true := wf_insert k t.root h

theorem trie_wf_erase {t : Trie} (h : Trie.wf t = true) (k : List Char)
    (isPref : Bool) : Trie.wf (Trie.erase t k isPref) = true :=
  wf_erase k isPref t.root h

theorem trie_mem_keys {t : Trie} (h : Trie.wf t = true) (kk : List Char) :
    kk ∈ Trie.keys t ↔ Trie.contains t kk false = true := by
  rw [contains_false_eq]
  exact mem_keys_iff_endAt kk t.root h

theorem trie_contains_true_iff {t : Trie} (h : Trie.wf t = true) (k : List Char) :
    Trie.contains t k true = true ↔ (k = [] ∨ ∃ kk ∈ Trie.keys t, k <+: kk) := by
  rw [contains_true_eq]
  exact find_isSome_iff k t.root h

theorem mem_keys_insert {t : Trie} (h : Trie.wf t = true) (k kk : List Char) :
    kk ∈ Trie.keys (Trie.insert t k) ↔ (kk ∈ Trie.keys t ∨ kk = k) := by
  rw [Trie.keys, Trie.keys]
  rw [mem_keys_iff_endAt kk _ (trie_wf_insert h k)]
  rw [mem_keys_iff_endAt kk t.root h]
  show Node.endAt (Node.insert t.root k) kk = true ↔ _
  rw [endAt_insert]
  simp [Bool.or_eq_true, decide_eq_true_eq]

theorem mem_keys_erase_false {t : Trie} (h : Trie.wf t = true) (k kk : List Char) :
    kk ∈ Trie.keys (Trie.erase t k false) ↔ (kk ∈ Trie.keys t ∧ kk ≠ k) := by
  rw [Trie.keys, Trie.keys]
  rw [mem_keys_iff_endAt kk _ (trie_wf_erase h k false)]
  rw [mem_keys_iff_endAt kk t.root h]
  show Node.endAt (Node.erase t.root k false) kk = true ↔ _
  rw [endAt_erase_false k t.root kk h]
  simp [Bool.and_eq_true, decide_eq_true_eq]

theorem mem_keys_erase_true {t : Trie} (h : Trie.wf t = true) (k kk : List Char) :
    kk ∈ Trie.keys (Trie.erase t k true) ↔ (kk ∈ Trie.keys t ∧ ¬(k <+: kk)) := by
  rw [Trie.keys, Trie.keys]
  rw [mem_keys_iff_endAt kk _ (trie_wf_erase h k true)]
  rw [mem_keys_iff_endAt kk t.root h]
  show Node.endAt (Node.erase t.root k true) kk = true ↔ _
  rw [endAt_erase_true k t.root kk h]
  have hpf : (List.isPrefixOf k kk = false) ↔ ¬(k <+: kk) := by
    constructor
    · intro hf hp
      rw [← List.isPrefixOf_iff_prefix] at hp
      rw [hf] at hp
      exact Bool.false_ne_true hp
    · intro hn
      cases hq : List.isPrefixOf k kk
      · rfl
      · exact absurd (List.isPrefixOf_iff_prefix.mp hq) hn
  simp [Bool.and_eq_true, hpf]

theorem trie_size_eq_length (t : Trie) :
    Trie.size t [] = (Trie.keys t).length := by
  rw [Trie.size, Trie.keys, keys_length_node]
  simp [Node.find]

theorem trie_keys_sorted {t : Trie} (h : Trie.wf t = true) :
    (Trie.keys t).Pairwise lexLt := keys_sorted_node t.root h

theorem trie_keys_eq_of_same_mem {a b : Trie} (ha : Trie.wf a = true)
    (hb : Trie.wf b = true) (hmem : ∀ k, k ∈ Trie.keys a ↔ k ∈ Trie.keys b) :
    Trie.keys a = Trie.keys b :=
  sorted_eq_of_same_mem (trie_keys_sorted ha) (trie_keys_sorted hb) hmem

theorem wf_foldl_insert : ∀ (L : List (List Char)) (t : Trie),
    Trie.wf t = true → Trie.wf (L.foldl Trie.insert t) = true
  | [], _, h => h
  | k :: L, _, h => wf_foldl_insert L _ (trie_wf_insert h k)

theorem wf_foldl_erase : ∀ (L : List (List Char)) (t : Trie),
    Trie.wf t = true →
    Trie.wf (L.foldl (fun a k => Trie.erase a k false) t) = true
  | [], _, h => h
  | k :: L, _, h => wf_foldl_erase L _ (trie_wf_erase h k false)

theorem mem_keys_foldl_insert : ∀ (L : List (List Char)) (t : Trie),
    Trie.wf t = true → ∀ kk,
    (kk ∈ Trie.keys (L.foldl Trie.insert t) ↔ kk ∈ Trie.keys t ∨ kk ∈ L)
  | [], _t, _, kk => by simp
  | k :: L, t, h, kk => by
    rw [List.foldl_cons,
      mem_keys_foldl_insert L _ (trie_wf_insert h k) kk,
      mem_keys_insert h]
    simp only [List.mem_cons]
    tauto

theorem mem_keys_foldl_erase : ∀ (L : List (List Char)) (t : Trie),
    Trie.wf t = true → ∀ kk,
    (kk ∈ Trie.keys (L.foldl (fun a k => Trie.erase a k false) t) ↔
      kk ∈ Trie.keys t ∧ kk ∉ L)
  | [], _t, _, kk => by simp
  | k :: L, t, h, kk => by
    rw [List.foldl_cons,
      mem_keys_foldl_erase L _ (trie_wf_erase h k false) kk,
      mem_keys_erase_false h]
    simp only [List.mem_cons]
    tauto

/-! ### Helper facts for the claims -/

theorem children_nil_of_keys_nil {cs : Children} (hall : Children.wfAll cs = true)
    (hk : Children.keys cs = []) : cs = Children.nil := by
  cases cs with
  | nil => rfl
  | cons c n rest =>
    rw [Children.wfAll, Bool.and_eq_true, Bool.and_eq_true] at hall
    rw [Children.keys, List.append_eq_nil, List.map_eq_nil_iff] at hk
    exact absurd hk.1 (keys_ne_nil_of_live n hall.1.2 hall.1.1)

theorem trie_eq_default_of_keys_nil {t : Trie} (hw : Trie.wf t = true)
    (hk : Trie.keys t = []) : t = Trie.default := by
  obtain ⟨root⟩ := t
  cases root with
  | mk b cs =>
    rw [Trie.wf, Node.wf, Bool.and_eq_true] at hw
    rw [Trie.keys, Node.keys] at hk
    cases b with
    | true => simp at hk
    | false =>
      simp only [Bool.false_eq_true, if_false, List.nil_append] at hk
      rw [Trie.default, children_nil_of_keys_nil hw.2 hk]

theorem trie_subsetB_iff (x y : Trie) :
    Trie.subsetB x y = true ↔ ∀ k ∈ Trie.keys x, k ∈ Trie.keys y := by
  simp [Trie.subsetB, List.all_eq_true]

theorem runQueries_id : ∀ (qs : List Query) (t : Trie), runQueries t qs = t
  | [], _ => rfl
  | q :: qs, t => by
    cases q <;> exact runQueries_id qs t

/-! ### Claims -/

/-- C1 counterexample: on the empty trie with the empty key, contains
with the prefix flag returns true although no stored key (there are
none) has the empty string as a prefix, so the claimed iff is false at
this input. -/
theorem c1_counterexample :
    Trie.contains Trie.default [] true = true ∧
    ¬ ∃ kk ∈ Trie.keys Trie.default, [] <+: kk := by
  constructor
  · rfl
  · simp [Trie.keys, Trie.default, Node.keys, Children.keys]

/-- C1 (amended): for every well-formed trie, contains(key, false) is
true iff key is a stored key; contains(key, true) is true iff key is
the empty string or some stored key has key as a prefix (including key
itself if stored); contains("", true) is always true, even on an empty
trie, while contains("", false) is true only if the empty string is a
stored key. -/
theorem c1_contains_spec {t : Trie} (h : Trie.wf t = true) (k : List Char) :
    (Trie.contains t k false = true ↔ k ∈ Trie.keys t) ∧
    (Trie.contains t k true = true ↔
      (k = [] ∨ ∃ kk ∈ Trie.keys t, k <+: kk)) ∧
    Trie.contains t [] true = true ∧
    (Trie.contains t [] false = true ↔ [] ∈ Trie.keys t) := by
  refine ⟨(trie_mem_keys h k).symm, trie_contains_true_iff h k, ?_,
    (trie_mem_keys h []).symm⟩
  rw [contains_true_eq]
  simp [Node.find]

/-- C1 witness: the amended statement instantiated at a two-key trie. -/
theorem c1_witness :
    Trie.wf (Trie.ofList [['a', 'b']]) = true ∧
    ((Trie.contains (Trie.ofList [['a', 'b']]) ['a'] false = true ↔
        ['a'] ∈ Trie.keys (Trie.ofList [['a', 'b']])) ∧
      (Trie.contains (Trie.ofList [['a', 'b']]) ['a'] true = true ↔
        (['a'] = [] ∨ ∃ kk ∈ Trie.keys (Trie.ofList [['a', 'b']]), ['a'] <+: kk)) ∧
      Trie.contains (Trie.ofList [['a', 'b']]) [] true = true ∧
      (Trie.contains (Trie.ofList [['a', 'b']]) [] false = true ↔
        [] ∈ Trie.keys (Trie.ofList [['a', 'b']]))) :=
  ⟨by decide, c1_contains_spec (by decide) ['a']⟩

/-- C2: after inserting each key of K in order into an initially empty
trie, size() equals the number of distinct keys of K, and contains(k)
holds for every k in K. -/
theorem c2_insert_sequence (K : List (List Char)) :
    Trie.size (Trie.ofList K) [] = K.dedup.length ∧
    ∀ k ∈ K, Trie.contains (Trie.ofList K) k false = true := by
  have hwf : Trie.wf (Trie.ofList K) = true :=
    wf_foldl_insert K Trie.default trie_wf_default
  have hmem : ∀ kk, kk ∈ Trie.keys (Trie.ofList K) ↔ kk ∈ K := by
    intro kk
    rw [Trie.ofList, mem_keys_foldl_insert K Trie.default trie_wf_default kk]
    have : Trie.keys Trie.default = [] := rfl
    simp [this]
  have hnd : (Trie.keys (Trie.ofList K)).Nodup := keys_nodup hwf
  have hperm : (Trie.keys (Trie.ofList K)).Perm K.dedup :=
    (List.perm_ext_iff_of_nodup hnd K.nodup_dedup).mpr fun a => by
      rw [hmem a, List.mem_dedup]
  refine ⟨by rw [trie_size_eq_length, hperm.length_eq], fun k hk => ?_⟩
  exact (trie_mem_keys hwf k).mp ((hmem k).mpr hk)

/-- C2 witness: the statement instantiated at a sequence with a
duplicate. -/
theorem c2_witness :
    Trie.size (Trie.ofList [['a'], ['b'], ['a']]) [] =
      [['a'], ['b'], ['a']].dedup.length ∧
    ∀ k ∈ [['a'], ['b'], ['a']],
      Trie.contains (Trie.ofList [['a'], ['b'], ['a']]) k false = true :=
  c2_insert_sequence [['a'], ['b'], ['a']]

/-- C3: erase(key, true) removes exactly the stored keys having key as a
prefix, including the entry of key itself, and keeps every other stored
key; when no stored key has key as a prefix the stored-key sequence is
unchanged. -/
theorem c3_erase_prefix_spec {t : Trie} (h : Trie.wf t = true) (k : List Char) :
    (∀ kk, kk ∈ Trie.keys (Trie.erase t k true) ↔
      (kk ∈ Trie.keys t ∧ ¬(k <+: kk))) ∧
    ((∀ kk ∈ Trie.keys t, ¬(k <+: kk)) →
      Trie.keys (Trie.erase t k true) = Trie.keys t) := by
  refine ⟨fun kk => mem_keys_erase_true h k kk, fun hno => ?_⟩
  apply trie_keys_eq_of_same_mem (trie_wf_erase h k true) h
  intro kk
  rw [mem_keys_erase_true h k kk]
  exact ⟨fun hx => hx.1, fun hx => ⟨hx, hno kk hx⟩⟩

/-- C3 witness: the statement instantiated at the trie with keys ab and
cd, erasing prefix a. -/
theorem c3_witness :
    Trie.wf (Trie.ofList [['a', 'b'], ['c', 'd']]) = true ∧
    ((∀ kk, kk ∈ Trie.keys (Trie.erase (Trie.ofList [['a', 'b'], ['c', 'd']]) ['a'] true) ↔
      (kk ∈ Trie.keys (Trie.ofList [['a', 'b'], ['c', 'd']]) ∧ ¬(['a'] <+: kk))) ∧
    ((∀ kk ∈ Trie.keys (Trie.ofList [['a', 'b'], ['c', 'd']]), ¬(['a'] <+: kk)) →
      Trie.keys (Trie.erase (Trie.ofList [['a', 'b'], ['c', 'd']]) ['a'] true) =
        Trie.keys (Trie.ofList [['a', 'b'], ['c', 'd']]))) :=
  ⟨by decide, c3_erase_prefix_spec (by decide) ['a']⟩

/-- C4: forward iteration yields exactly the stored keys, each exactly
once, in strictly ascending lexicographic order; reverse iteration
yields the exact reverse sequence; and the number of forward iteration
steps equals size(). -/
theorem c4_iteration_order {t : Trie} (h : Trie.wf t = true) :
    (∀ kk, kk ∈ Trie.keys t ↔ Trie.contains t kk false = true) ∧
    (Trie.keys t).Nodup ∧
    (Trie.keys t).Pairwise lexLt ∧
    Trie.keysRev t = (Trie.keys t).reverse ∧
    (Trie.keys t).length = Trie.size t [] :=
  ⟨fun kk => trie_mem_keys h kk, keys_nodup h, trie_keys_sorted h,
    keysRev_node t.root, (trie_size_eq_length t).symm⟩

/-- C4 witness: the statement instantiated at the trie with keys b, a. -/
theorem c4_witness :
    Trie.wf (Trie.ofList [['b'], ['a']]) = true ∧
    ((∀ kk, kk ∈ Trie.keys (Trie.ofList [['b'], ['a']]) ↔
        Trie.contains (Trie.ofList [['b'], ['a']]) kk false = true) ∧
      (Trie.keys (Trie.ofList [['b'], ['a']])).Nodup ∧
      (Trie.keys (Trie.ofList [['b'], ['a']])).Pairwise lexLt ∧
      Trie.keysRev (Trie.ofList [['b'], ['a']]) =
        (Trie.keys (Trie.ofList [['b'], ['a']])).reverse ∧
      (Trie.keys (Trie.ofList [['b'], ['a']])).length =
        Trie.size (Trie.ofList [['b'], ['a']]) []) :=
  ⟨by decide, c4_iteration_order (by decide)⟩

/-- C5: inserting a previously-absent key and then erasing it as an
exact key returns the trie to exactly its prior stored-key sequence. -/
theorem c5_erase_inverse_of_insert {t : Trie} (h : Trie.wf t = true)
    {k : List Char} (hk : Trie.contains t k false = false) :
    Trie.keys (Trie.erase (Trie.insert t k) k false) = Trie.keys t := by
  apply trie_keys_eq_of_same_mem (trie_wf_erase (trie_wf_insert h k) k false) h
  intro kk
  rw [mem_keys_erase_false (trie_wf_insert h k) k kk, mem_keys_insert h k kk]
  constructor
  · rintro ⟨hmem | rfl, hne⟩
    · exact hmem
    · exact absurd rfl hne
  · intro hmem
    refine ⟨Or.inl hmem, fun he => ?_⟩
    subst he
    have hc := (trie_mem_keys h kk).mp hmem
    rw [hk] at hc
    exact Bool.false_ne_true hc

/-- C5 witness: insert then erase the absent key ab in the trie holding
only a. -/
theorem c5_witness :
    Trie.wf (Trie.ofList [['a']]) = true ∧
    Trie.contains (Trie.ofList [['a']]) ['a', 'b'] false = false ∧
    Trie.keys (Trie.erase (Trie.insert (Trie.ofList [['a']]) ['a', 'b'])
      ['a', 'b'] false) = Trie.keys (Trie.ofList [['a']]) :=
  ⟨by decide, by decide, c5_erase_inverse_of_insert (by decide) (by decide)⟩

/-- C6: += yields the union of the stored-key sets, -= the difference
erasing exact keys only (a key of B that is a proper prefix of a key of
A removes just that key), and + and - are the copy-then-compound-assign
versions of the same operations. -/
theorem c6_set_algebra {a : Trie} (ha : Trie.wf a = true) (b : Trie)
    (kk : List Char) :
    (kk ∈ Trie.keys (Trie.append a b) ↔
      (kk ∈ Trie.keys a ∨ kk ∈ Trie.keys b)) ∧
    (kk ∈ Trie.keys (Trie.subtract a b) ↔
      (kk ∈ Trie.keys a ∧ kk ∉ Trie.keys b)) ∧
    Trie.plus a b = Trie.append a b ∧
    Trie.minus a b = Trie.subtract a b :=
  ⟨mem_keys_foldl_insert (Trie.keys b) a ha kk,
    mem_keys_foldl_erase (Trie.keys b) a ha kk, rfl, rfl⟩

/-- C6 witness: the scenario of section 8 of the spec, A = a, ab and
B = ab, abc, checked at the key ab. -/
theorem c6_witness :
    Trie.wf (Trie.ofList [['a'], ['a', 'b']]) = true ∧
    ((['a', 'b'] ∈ Trie.keys (Trie.append (Trie.ofList [['a'], ['a', 'b']])
        (Trie.ofList [['a', 'b'], ['a', 'b', 'c']])) ↔
      (['a', 'b'] ∈ Trie.keys (Trie.ofList [['a'], ['a', 'b']]) ∨
        ['a', 'b'] ∈ Trie.keys (Trie.ofList [['a', 'b'], ['a', 'b', 'c']]))) ∧
    (['a', 'b'] ∈ Trie.keys (Trie.subtract (Trie.ofList [['a'], ['a', 'b']])
        (Trie.ofList [['a', 'b'], ['a', 'b', 'c']])) ↔
      (['a', 'b'] ∈ Trie.keys (Trie.ofList [['a'], ['a', 'b']]) ∧
        ['a', 'b'] ∉ Trie.keys (Trie.ofList [['a', 'b'], ['a', 'b', 'c']]))) ∧
    Trie.plus (Trie.ofList [['a'], ['a', 'b']])
        (Trie.ofList [['a', 'b'], ['a', 'b', 'c']]) =
      Trie.append (Trie.ofList [['a'], ['a', 'b']])
        (Trie.ofList [['a', 'b'], ['a', 'b', 'c']]) ∧
    Trie.minus (Trie.ofList [['a'], ['a', 'b']])
        (Trie.ofList [['a', 'b'], ['a', 'b', 'c']]) =
      Trie.subtract (Trie.ofList [['a'], ['a', 'b']])
        (Trie.ofList [['a', 'b'], ['a', 'b', 'c']])) :=
  ⟨by decide, c6_set_algebra (by decide)
    (Trie.ofList [['a', 'b'], ['a', 'b', 'c']]) ['a', 'b']⟩

/-- C7: == is exactly stored-key-set equality regardless of tree shape,
< is the proper-subset comparison, and two tries with disjoint non-empty
key sets are mutually incomparable. -/
theorem c7_comparisons (a b : Trie) :
    (Trie.beq a b = true ↔ (∀ k, k ∈ Trie.keys a ↔ k ∈ Trie.keys b)) ∧
    (Trie.ltB a b = true ↔
      ((∀ k ∈ Trie.keys a, k ∈ Trie.keys b) ∧
        ∃ k ∈ Trie.keys b, k ∉ Trie.keys a)) ∧
    ((Trie.keys a ≠ [] ∧ Trie.keys b ≠ [] ∧
        ∀ k ∈ Trie.keys a, k ∉ Trie.keys b) →
      (Trie.beq a b = false ∧ Trie.ltB a b = false ∧ Trie.ltB b a = false)) := by
  have hbeq : Trie.beq a b = true ↔
      (∀ k, k ∈ Trie.keys a ↔ k ∈ Trie.keys b) := by
    rw [Trie.beq, Bool.and_eq_true, trie_subsetB_iff a b, trie_subsetB_iff b a]
    constructor
    · rintro ⟨h1, h2⟩ k
      exact ⟨fun hk => h1 k hk, fun hk => h2 k hk⟩
    · intro hh
      exact ⟨fun k hk => (hh k).mp hk, fun k hk => (hh k).mpr hk⟩
  have hlt : ∀ x y : Trie, (Trie.ltB x y = true ↔
      ((∀ k ∈ Trie.keys x, k ∈ Trie.keys y) ∧
        ∃ k ∈ Trie.keys y, k ∉ Trie.keys x)) := by
    intro x y
    rw [Trie.ltB, Bool.and_eq_true, trie_subsetB_iff x y, Bool.not_eq_true']
    have hniff : Trie.subsetB y x = false ↔
        ¬ ∀ k ∈ Trie.keys y, k ∈ Trie.keys x := by
      rw [← trie_subsetB_iff y x]
      cases hxx : Trie.subsetB y x <;> simp
    rw [hniff]
    constructor
    · rintro ⟨h1, h2⟩
      refine ⟨h1, ?_⟩
      by_contra hc
      push_neg at hc
      exact h2 hc
    · rintro ⟨h1, k0, hk0y, hk0x⟩
      exact ⟨h1, fun hall => hk0x (hall k0 hk0y)⟩
  refine ⟨hbeq, hlt a b, ?_⟩
  rintro ⟨hane, hbne, hdisj⟩
  obtain ⟨k0, hk0⟩ := List.exists_mem_of_ne_nil _ hane
  obtain ⟨l0, hl0⟩ := List.exists_mem_of_ne_nil _ hbne
  refine ⟨?_, ?_, ?_⟩
  · cases hb : Trie.beq a b with
    | false => rfl
    | true => exact absurd ((hbeq.mp hb k0).mp hk0) (hdisj k0 hk0)
  · cases hb : Trie.ltB a b with
    | false => rfl
    | true => exact absurd (((hlt a b).mp hb).1 k0 hk0) (hdisj k0 hk0)
  · cases hb : Trie.ltB b a with
    | false => rfl
    | true => exact absurd hl0 (hdisj l0 (((hlt b a).mp hb).1 l0 hl0))

/-- C7 witness: the incomparability conclusion applied to the disjoint
singleton tries holding a and b. -/
theorem c7_witness :
    (Trie.keys (Trie.ofList [['a']]) ≠ [] ∧
      Trie.keys (Trie.ofList [['b']]) ≠ [] ∧
      ∀ k ∈ Trie.keys (Trie.ofList [['a']]),
        k ∉ Trie.keys (Trie.ofList [['b']])) ∧
    (Trie.beq (Trie.ofList [['a']]) (Trie.ofList [['b']]) = false ∧
      Trie.ltB (Trie.ofList [['a']]) (Trie.ofList [['b']]) = false ∧
      Trie.ltB (Trie.ofList [['b']]) (Trie.ofList [['a']]) = false) :=
  ⟨by decide,
    (c7_comparisons (Trie.ofList [['a']]) (Trie.ofList [['b']])).2.2 (by decide)⟩

/-- C8: clear() gives the same resulting key set as erase("", true),
afterwards the trie stores no keys and equals the initial empty state,
and clearing an already-empty well-formed trie is a no-op. -/
theorem c8_clear_spec (t : Trie) :
    Trie.clear t = Trie.erase t [] true ∧
    Trie.keys (Trie.clear t) = [] ∧
    Trie.clear t = Trie.default ∧
    (Trie.wf t = true → Trie.keys t = [] → Trie.clear t = t) := by
  refine ⟨rfl, rfl, rfl, fun hw hk => ?_⟩
  rw [Trie.clear, (trie_eq_default_of_keys_nil hw hk)]

/-- C8 witness: the statement applied to the empty trie, whose clearing
is a no-op. -/
theorem c8_witness :
    Trie.wf Trie.default = true ∧ Trie.keys Trie.default = [] ∧
    Trie.clear Trie.default = Trie.default :=
  ⟨by decide, rfl, (c8_clear_spec Trie.default).2.2.2 (by decide) rfl⟩

/-- C9: after insert, erase with either flag, clear, and both compound
assignments on a well-formed trie, every node reachable from the root
other than the root itself is live, so no dead node persists outside
the root. -/
theorem c9_no_dead_nodes {t : Trie} (h : Trie.wf t = true) (b : Trie)
    (k : List Char) (isPref : Bool) :
    Trie.noDead (Trie.insert t k) = true ∧
    Trie.noDead (Trie.erase t k isPref) = true ∧
    Trie.noDead (Trie.clear t) = true ∧
    Trie.noDead (Trie.append t b) = true ∧
    Trie.noDead (Trie.subtract t b) = true :=
  ⟨wf_noDead _ (trie_wf_insert h k),
    wf_noDead _ (trie_wf_erase h k isPref),
    wf_noDead _ trie_wf_default,
    wf_noDead _ (wf_foldl_insert (Trie.keys b) t h),
    wf_noDead _ (wf_foldl_erase (Trie.keys b) t h)⟩

/-- C9 witness: the statement instantiated at the trie holding ab,
erasing the key a against the trie holding a. -/
theorem c9_witness :
    Trie.wf (Trie.ofList [['a', 'b']]) = true ∧
    (Trie.noDead (Trie.insert (Trie.ofList [['a', 'b']]) ['a']) = true ∧
      Trie.noDead (Trie.erase (Trie.ofList [['a', 'b']]) ['a'] false) = true ∧
      Trie.noDead (Trie.clear (Trie.ofList [['a', 'b']])) = true ∧
      Trie.noDead (Trie.append (Trie.ofList [['a', 'b']])
        (Trie.ofList [['a']])) = true ∧
      Trie.noDead (Trie.subtract (Trie.ofList [['a', 'b']])
        (Trie.ofList [['a']])) = true) :=
  ⟨by decide, c9_no_dead_nodes (by decide) (Trie.ofList [['a']]) ['a'] false⟩

/-- C10: contains, size, empty, const iteration and streaming are pure
observers: any sequence of them hands the trie back unchanged, so every
membership query answers the same before and after. -/
theorem c10_queries_pure (t : Trie) (qs : List Query) :
    runQueries t qs = t ∧
    ∀ k isPref, Trie.contains (runQueries t qs) k isPref =
      Trie.contains t k isPref := by
  refine ⟨runQueries_id qs t, fun k isPref => ?_⟩
  rw [runQueries_id qs t]
